/-
Verification of the luxon `structs` core: the shared-memory hash map
(`BoostHashMap` in the C++ extension, wrapped by `BytesHashMap` /
`BaseSerializedHashMap` in `ipc.pyx`) and the LRU cache (`LRUCache` in the
C++ extension, wrapped by `LRU` in `lru.pyx`).

The embedding models:
  * byte strings as `List Nat` (one `Nat` per byte);
  * the `boost::unordered_map<bytes, bytes>` stored in the segment as an
    association list in the map's internal (bucket-derived) order, with the
    segment's fixed byte capacity carried alongside;
  * `LRUCache`'s doubly linked recency list as a front-first list of
    `(key, value)` nodes, and its `pageMap` (a `std::map<string, Node*>`)
    as the list of keys under which a node pointer is indexed;
  * the locking behaviour of each `BoostHashMap` member function as the
    sequence of lock/shared-state events its body performs.

Fallible operations return `Except`; the C++ `throw KeyError()` /
`throw StopIteration()` paths become `Except.error`.  A C++ execution with
no defined behavior — dereferencing a null pointer (possible in
`LRUCache::put` when `capacity == 0`) or advancing an iterator past
`end()` (possible in `BoostHashMap::iter` when the position is strictly
beyond the entry count) — is modelled as `Option.none`.
-/
import Mathlib

/-- A byte string: keys and values of the shared-memory map. -/
abbrev ByteStr := List Nat

/-- Errors a `BoostHashMap` operation can signal: `KeyError` ("Bytes 'Key'
not found") and `StopIteration`, from the exception structs in the C++
source. -/
inductive MapErr where
  | keyNotFound
  | endOfIteration
  deriving DecidableEq, Repr

/-- State of one named map inside one shared-memory segment.  `segSize` is
the byte size the `managed_shared_memory` was opened with (returned verbatim
by `shm.get_size()`); `entries` is the contents of the
`boost::unordered_map`, one `(key, value)` pair per stored entry, listed in
the map's internal iteration order. -/
structure BoostHashMap where
  segSize : Nat
  entries : List (ByteStr × ByteStr)
  deriving DecidableEq, Repr

namespace BoostHashMap

/-- `BoostHashMap::BoostHashMap(shm_name, size, map_name)`: opens (or
creates) the segment of `size` bytes; the named map starts empty
(`find_or_construct` builds an empty `ShmMap` on first access). -/
def init (size : Nat) : BoostHashMap :=
  { segSize := size, entries := [] }

/-- The predicate used to locate an entry by key. -/
def keyIs (k : ByteStr) : ByteStr × ByteStr → Bool :=
  fun e => e.1 == k

/-- `BoostHashMap::set(key, value)`: `shm_map->erase(key)` followed by
`shm_map->insert({key, value})` — erase-then-insert upsert.  The insert
position in the bucket order is unspecified; the model places the fresh
entry at the front. -/
def set (m : BoostHashMap) (k v : ByteStr) : BoostHashMap :=
  { m with entries := (k, v) :: m.entries.eraseP (keyIs k) }

/-- `BoostHashMap::get(key)`: `shm_map->find(key)`; returns the mapped
value bytes if found, otherwise `throw KeyError()`. -/
def get (m : BoostHashMap) (k : ByteStr) : Except MapErr ByteStr :=
  match m.entries.find? (keyIs k) with
  | some e => .ok e.2
  | none => .error .keyNotFound

/-- `BoostHashMap::erase(key)`: `shm_map->erase(key)`.  `erase` on a
`boost::unordered_map` removes the entry when present and does nothing
otherwise; no exception is thrown either way, so the model is total. -/
def erase (m : BoostHashMap) (k : ByteStr) : BoostHashMap :=
  { m with entries := m.entries.eraseP (keyIs k) }

/-- `BoostHashMap::iter(pos)`: `f = shm_map->begin(); advance(f, pos)`;
if `f != shm_map->end()` return the entry's mapped value bytes
(`f->second`), else `throw StopIteration()`.  `advance` is only defined
while the iterator has not yet been incremented past `end()`, i.e. for
`pos ≤` entry count: landing before `end()` yields the entry's value,
landing exactly on `end()` throws `StopIteration`, and any larger `pos`
increments past `end()` — undefined behavior, modelled as `none`. -/
def iter (m : BoostHashMap) (pos : Nat) : Option (Except MapErr ByteStr) :=
  if pos ≤ m.entries.length then
    match m.entries.drop pos with
    | e :: _ => some (.ok e.2)
    | [] => some (.error .endOfIteration)
  else
    none

/-- `BoostHashMap::clear()`: `shm_map->clear()`. -/
def clear (m : BoostHashMap) : BoostHashMap :=
  { m with entries := [] }

/-- `BoostHashMap::size()`: `shm.get_size()` — the byte size of the whole
segment, not the entry count. -/
def size (m : BoostHashMap) : Nat :=
  m.segSize

end BoostHashMap

/-- Well-formedness of a map state: keys are unique, as
`boost::unordered_map` guarantees.  Holds for every state reachable from a
fresh map. -/
def BoostHashMap.Wf (m : BoostHashMap) : Prop :=
  (m.entries.map Prod.fst).Nodup

/-- One mutating call against a named map, as issued by a single process
(`get` never mutates, so it does not appear). -/
inductive MOp where
  | set (k v : ByteStr)
  | erase (k : ByteStr)
  | clear
  deriving DecidableEq, Repr

/-- Run a chronological sequence of mutating calls against a map state. -/
def runMapOps (m : BoostHashMap) (ops : List MOp) : BoostHashMap :=
  ops.foldl
    (fun m op =>
      match op with
      | .set k v => m.set k v
      | .erase k => m.erase k
      | .clear => m.clear)
    m

/-- The value the spec says `get k` must see after a chronological sequence
of calls: the argument of the most recent `set k v`, unless an `erase k`
(or a `clear`) came later, in which case nothing. -/
def lastWrite (ops : List MOp) (k : ByteStr) : Option ByteStr :=
  ops.foldl
    (fun acc op =>
      match op with
      | .set k2 v => if k2 == k then some v else acc
      | .erase k2 => if k2 == k then none else acc
      | .clear => none)
    none

/-! ## The LRU cache (`LRUCache` / `DoublyLinkedList` in the C++ source)

A `Node` holds `(key, value, prev, next)`.  The model represents the
doubly linked recency list as a front-first list of `(key, value)` pairs —
one pair per `Node` — and `pageMap : map<string, Node*>` as the list of
keys under which a node pointer is currently indexed (the pointed-to node
is the list entry with that key; keys are unique in reachable states).
A C++ execution that dereferences a null or dangling node pointer is
modelled as `none`. -/

/-- The recency list, front (most recently used) first. -/
abbrev DoublyLinkedList := List (String × String)

namespace DoublyLinkedList

/-- `DoublyLinkedList::add_page_to_head(key, value)`: allocates a node and
links it at the front. -/
def add_page_to_head (l : DoublyLinkedList) (k v : String) : DoublyLinkedList :=
  (k, v) :: l

/-- The node passed to `move_page_to_head(page)` — `pageMap[key]` at the
call sites — located by its key. -/
def pageFor (l : DoublyLinkedList) (k : String) : Option (String × String) :=
  l.find? (fun e => e.1 == k)

/-- `DoublyLinkedList::move_page_to_head(page)`: if `page == front`,
return unchanged; otherwise unlink `page` (rear or middle case) and relink
it at the front.  `none` from `pageFor` corresponds to a pointer to a node
not linked in this list, which the C++ code never checks for. -/
def move_page_to_head (l : DoublyLinkedList) (k : String) : DoublyLinkedList :=
  match pageFor l k with
  | none => l
  | some page =>
      if l.head? = some page then l
      else page :: l.eraseP (fun e => e.1 == k)

/-- `DoublyLinkedList::remove_rear_page()`: no-op on an empty list,
otherwise unlink and delete the rear node. -/
def remove_rear_page (l : DoublyLinkedList) : DoublyLinkedList :=
  l.dropLast

/-- `DoublyLinkedList::get_rear_page()`: the rear node, null when empty. -/
def get_rear_page (l : DoublyLinkedList) : Option (String × String) :=
  l.getLast?

end DoublyLinkedList

/-- `LRUCache`'s fields: `int capacity, size`, the recency list, and
`map<string, Node*> pageMap` (kept as the list of indexed keys). -/
structure LRUCache where
  capacity : Int
  size : Int
  pageList : DoublyLinkedList
  pageMap : List String
  deriving DecidableEq, Repr

namespace LRUCache

/-- `LRUCache::LRUCache(int capacity)`: stores `capacity` verbatim (no
validation), `size = 0`, empty list and map.  The constructor has no
failure path. -/
def init (capacity : Int) : LRUCache :=
  { capacity := capacity, size := 0, pageList := [], pageMap := [] }

/-- `LRUCache::get(key)`: if `key` is not in `pageMap`, `throw KeyError()`;
otherwise read `pageMap[key]->value` and move the node to the front.
The inner `none` is the C++ dereference of a map pointer whose node is not
linked in the list (unreachable from reachable states, see `Inv`). -/
def get (c : LRUCache) (k : String) : Option (Except MapErr String × LRUCache) :=
  if c.pageMap.contains k then
    match DoublyLinkedList.pageFor c.pageList k with
    | some page =>
        some (.ok page.2,
          { c with pageList := DoublyLinkedList.move_page_to_head c.pageList k })
    | none => none
  else
    some (.error .keyNotFound, c)

/-- `LRUCache::put(key, value)`:
  * key already indexed: `pageMap[key]->value = value` (the node is the
    list entry with that key), then move it to the head; `size` unchanged;
  * else, if `size == capacity`: read `get_rear_page()->key` (a null
    dereference — `none` — when the list is empty), drop that key from
    `pageMap`, `remove_rear_page()`, `size--`;
  * then link a fresh node at the head, `size++`, `pageMap[key] = page`. -/
def put (c : LRUCache) (k v : String) : Option LRUCache :=
  if c.pageMap.contains k then
    let l := c.pageList.map (fun e => if e.1 == k then (e.1, v) else e)
    some { c with pageList := DoublyLinkedList.move_page_to_head l k }
  else
    let evicted : Option LRUCache :=
      if c.size = c.capacity then
        match DoublyLinkedList.get_rear_page c.pageList with
        | some rear =>
            some { c with
              pageMap := c.pageMap.erase rear.1,
              pageList := DoublyLinkedList.remove_rear_page c.pageList,
              size := c.size - 1 }
        | none => none
      else some c
    match evicted with
    | some c1 =>
        some { c1 with
          pageList := DoublyLinkedList.add_page_to_head c1.pageList k v,
          size := c1.size + 1,
          pageMap := k :: c1.pageMap }
    | none => none

end LRUCache

/-- One call against an `LRUCache`. -/
inductive LOp where
  | put (k v : String)
  | get (k : String)
  deriving DecidableEq, Repr

/-- Run a chronological sequence of calls; `none` as soon as one call
dereferences a null or dangling pointer. -/
def runLRU (c : LRUCache) (ops : List LOp) : Option LRUCache :=
  match ops with
  | [] => some c
  | .put k v :: rest =>
      match c.put k v with
      | some c2 => runLRU c2 rest
      | none => none
  | .get k :: rest =>
      match c.get k with
      | some r => runLRU r.2 rest
      | none => none

/-- The keys currently linked in the recency list, front first. -/
def lruKeys (c : LRUCache) : List String :=
  c.pageList.map Prod.fst

/-- The cache's structural invariant: `size` counts the linked nodes,
`size ≤ capacity`, keys are unique in the list and in the index, and the
`pageMap` index and the recency list hold exactly the same keys. -/
def LruInv (c : LRUCache) : Prop :=
  c.size = (c.pageList.length : Int) ∧
  c.size ≤ c.capacity ∧
  (lruKeys c).Nodup ∧
  c.pageMap.Nodup ∧
  ∀ k : String, k ∈ lruKeys c ↔ k ∈ c.pageMap

/-! ## Locking behaviour of the `BoostHashMap` member functions

Each member function's body is abstracted to the sequence of lock and
shared-state events it performs.  Locating the `"mtx"` object itself
(`find_or_construct` of the mutex) is treated as part of lock acquisition.
`bip::scoped_lock` on the `interprocess_sharable_mutex` acquires it in
exclusive mode and releases it when the function returns; the sharable
(reader) mode of the mutex is never used by any member function. -/

/-- A lock or shared-state event inside one member function body. -/
inductive LockEv where
  /-- `scoped_lock` construction: exclusive acquisition of `"mtx"`. -/
  | acquireExclusive
  /-- `sharable_lock` construction: shared (reader) acquisition — the mode
  the mutex type offers but the code never uses. -/
  | acquireShared
  /-- End of the lock's scope: release. -/
  | release
  /-- A read or write of state living in the shared segment (the named
  map's contents, or the segment's own bookkeeping). -/
  | touchShared
  deriving DecidableEq, Repr

/-- The public operations of `BoostHashMap` (`free` is `free_bytes` in the
spec's vocabulary). -/
inductive MapApiOp where
  | set
  | get
  | erase
  | iter
  | clear
  | size
  | free
  deriving DecidableEq, Repr

/-- The event sequence each member function performs, read off its body:
`set`/`get`/`erase`/`iter`/`clear` construct a `scoped_lock`, operate on
the shared map, and release at scope end; `size()` returns
`shm.get_size()` and `free()` returns `shm.get_free_memory()` with no lock
in their bodies at all. -/
def opTrace : MapApiOp → List LockEv
  | .set => [.acquireExclusive, .touchShared, .release]
  | .get => [.acquireExclusive, .touchShared, .release]
  | .erase => [.acquireExclusive, .touchShared, .release]
  | .iter => [.acquireExclusive, .touchShared, .release]
  | .clear => [.acquireExclusive, .touchShared, .release]
  | .size => [.touchShared]
  | .free => [.touchShared]

/-- `exclGuardedAux held es`: every `touchShared` in `es` happens while the
exclusive lock is held (`held` says whether it is held already). -/
def exclGuardedAux : Bool → List LockEv → Bool
  | _, [] => true
  | _, .acquireExclusive :: r => exclGuardedAux true r
  | held, .acquireShared :: r => exclGuardedAux held r
  | _, .release :: r => exclGuardedAux false r
  | held, .touchShared :: r => held && exclGuardedAux held r

/-- Every shared-state access in the trace happens under the exclusively
held mutex. -/
def exclusivelyGuarded (tr : List LockEv) : Bool :=
  exclGuardedAux false tr

/-! ## The codec adapter (`BaseSerializedHashMap` in `ipc.pyx`)

`BaseSerializedHashMap` runs every key and value through `_CODEC.dumps`
before storage and `_CODEC.loads` after retrieval (`_CODEC` is `marshal`
or `pickle`).  A codec failure raises out of the Python method; the model
returns the error paired with the (unchanged or changed) map state the
method left behind. -/

/-- The one serialization-failure signal of the spec's taxonomy. -/
inductive SerErr where
  | serializationError
  deriving DecidableEq, Repr

/-- An error surfacing from a codec-adapter method. -/
inductive AdapterErr where
  /-- A codec `dumps`/`loads` raised. -/
  | serialization
  /-- The underlying `BoostHashMap::get` threw `KeyError` (re-raised by the
  wrapper as a Python `KeyError`). -/
  | keyNotFound
  deriving DecidableEq, Repr

/-- A serializer/deserializer pair over an arbitrary value domain. -/
structure Codec (α : Type) where
  dumps : α → Except SerErr ByteStr
  loads : ByteStr → Except SerErr α

/-- `BaseSerializedHashMap.__setitem__`: `key = _CODEC.dumps(key)`,
`value = _CODEC.dumps(value)` — either failure raises before
`hashmap.set` runs — then `hashmap.set(key, value)`. -/
def serSetItem (c : Codec α) (m : BoostHashMap) (k v : α) :
    Except AdapterErr Unit × BoostHashMap :=
  match c.dumps k with
  | .error _ => (.error .serialization, m)
  | .ok kb =>
    match c.dumps v with
    | .error _ => (.error .serialization, m)
    | .ok vb => (.ok (), m.set kb vb)

/-- A codec whose `dumps` and `loads` always fail, as `pickle.dumps` does
on an unpicklable object. -/
def failCodec : Codec Nat :=
  { dumps := fun _ => .error .serializationError,
    loads := fun _ => .error .serializationError }

/-- `BaseSerializedHashMap.__getitem__`: `key = _CODEC.dumps(key)`, then
`hashmap.get` (its `KeyError` is re-raised as Python `KeyError`), then
`_CODEC.loads` on the returned value bytes.  No step mutates the map. -/
def serGetItem (c : Codec α) (m : BoostHashMap) (k : α) :
    Except AdapterErr α × BoostHashMap :=
  match c.dumps k with
  | .error _ => (.error .serialization, m)
  | .ok kb =>
    match m.get kb with
    | .error _ => (.error .keyNotFound, m)
    | .ok vb =>
      match c.loads vb with
      | .error _ => (.error .serialization, m)
      | .ok v => (.ok v, m)

/-! # Theorems -/

/-- C2: on an `LRUCache` of capacity 3, after `put(a,1)`, `put(b,2)`,
`put(c,3)`, `get(a)`, `put(d,4)`, the key `b` has been evicted: `get(b)`
fails with `KeyNotFound`, while `get(a)`, `get(c)`, `get(d)` return `1`,
`3`, `4`. -/
theorem lru_scenario_b :
    (do
      let c5 ← runLRU (LRUCache.init 3)
        [LOp.put "a" "1", LOp.put "b" "2", LOp.put "c" "3",
         LOp.get "a", LOp.put "d" "4"]
      let r1 ← c5.get "b"
      let r2 ← r1.2.get "a"
      let r3 ← r2.2.get "c"
      let r4 ← r3.2.get "d"
      pure (r1.1, r2.1, r3.1, r4.1)) =
      some (.error .keyNotFound, .ok "1", .ok "3", .ok "4") := by
  rfl

/-- Auxiliary: no mutating map call changes the segment's byte size. -/
theorem runMapOps_segSize (ops : List MOp) :
    ∀ m : BoostHashMap, (runMapOps m ops).segSize = m.segSize := by
  induction ops with
  | nil => intro m; rfl
  | cons op rest ih =>
      intro m
      cases op <;>
        simpa [runMapOps, BoostHashMap.set, BoostHashMap.erase,
          BoostHashMap.clear] using ih _

/-- C4: `size()` returns the byte capacity of the whole segment as fixed at
creation; it is unchanged by any sequence of `set`/`erase`/`clear` calls. -/
theorem size_is_segment_capacity (n : Nat) (ops : List MOp) :
    (runMapOps (BoostHashMap.init n) ops).size = n ∧
    (∀ m : BoostHashMap, (runMapOps m ops).size = m.size) := by
  refine ⟨?_, fun m => ?_⟩ <;>
    simp [BoostHashMap.size, runMapOps_segSize, BoostHashMap.init]

/-- C5: `erase` on a key not present in the map is a no-op: it has no error
path (the C++ `erase` returns `void` and throws nothing) and leaves the
map state — segment size and every stored entry — unchanged. -/
theorem erase_missing_key_noop (m : BoostHashMap) (k : ByteStr)
    (h : ∀ e ∈ m.entries, e.1 ≠ k) : m.erase k = m := by
  have hnone : ∀ e ∈ m.entries, ¬ (BoostHashMap.keyIs k e = true) := by
    intro e he
    simpa [BoostHashMap.keyIs] using h e he
  simp [BoostHashMap.erase, List.eraseP_of_forall_not hnone]

/-- Witness for C5 at a concrete map and absent key. -/
theorem erase_missing_key_noop_witness :
    BoostHashMap.erase ⟨64, [([1], [2])]⟩ [3] = ⟨64, [([1], [2])]⟩ :=
  erase_missing_key_noop ⟨64, [([1], [2])]⟩ [3] (by decide)

/-- C7 counterexample: `size()` (and `free()`) touch segment state without
ever acquiring the mutex, so not every operation holds the lock. -/
theorem size_and_free_unlocked :
    exclusivelyGuarded (opTrace MapApiOp.size) = false ∧
    LockEv.touchShared ∈ opTrace MapApiOp.size ∧
    LockEv.acquireExclusive ∉ opTrace MapApiOp.size ∧
    exclusivelyGuarded (opTrace MapApiOp.free) = false ∧
    LockEv.acquireExclusive ∉ opTrace MapApiOp.free := by
  decide

/-- C7 amended: `set`, `get`, `erase`, `iter` and `clear` each acquire the
single named mutex exclusively for the whole body and touch shared state
only under it, and no operation ever takes the mutex in shared mode; but
`size()` and `free()` access the segment without acquiring the mutex. -/
theorem locking_discipline :
    (∀ op : MapApiOp,
      exclusivelyGuarded (opTrace op) = true ↔ (op ≠ .size ∧ op ≠ .free)) ∧
    (∀ op : MapApiOp,
      ((opTrace op).head? = some .acquireExclusive ∧
        (opTrace op).getLast? = some .release) ↔ (op ≠ .size ∧ op ≠ .free)) ∧
    (∀ op : MapApiOp, LockEv.acquireShared ∉ opTrace op) := by
  refine ⟨fun op => ?_, fun op => ?_, fun op => ?_⟩ <;> cases op <;> decide

/-- C9 counterexample: the `LRUCache` constructor performs no validation —
it cannot fail, and a capacity of `0` is stored as `0`, not clamped to at
least `1`; the first `put` on such a cache then dereferences a null rear
pointer. -/
theorem lru_capacity_zero_accepted :
    (LRUCache.init 0).capacity = 0 ∧
    ¬ 1 ≤ (LRUCache.init 0).capacity ∧
    (LRUCache.init 0).put "a" "1" = none := by
  decide

/-- C9 amended: construction stores the requested capacity verbatim —
also when it is zero or negative — with `size = 0` and empty structures,
and has no failure path. -/
theorem lru_init_stores_capacity_verbatim (n : Int) :
    (LRUCache.init n).capacity = n ∧ (LRUCache.init n).size = 0 ∧
    (LRUCache.init n).pageList = [] ∧ (LRUCache.init n).pageMap = [] := by
  simp [LRUCache.init]

/-- Auxiliary: characterization of a successful `iter` call. -/
theorem iter_ok_iff (m : BoostHashMap) (pos : Nat) (b : ByteStr) :
    m.iter pos = some (.ok b) ↔
      ∃ h : pos < m.entries.length, b = (m.entries.get ⟨pos, h⟩).2 := by
  constructor
  · intro hok
    unfold BoostHashMap.iter at hok
    by_cases hle : pos ≤ m.entries.length
    · rw [if_pos hle] at hok
      rcases hd : m.entries.drop pos with _ | ⟨e, rest⟩
      · rw [hd] at hok
        simp at hok
      · rw [hd] at hok
        simp only [Option.some.injEq, Except.ok.injEq] at hok
        have hlen : pos < m.entries.length := by
          by_contra hc
          have hnil : m.entries.drop pos = [] := by
            rw [List.drop_eq_nil_iff]; omega
          rw [hnil] at hd; cases hd
        refine ⟨hlen, ?_⟩
        have hdrop := List.drop_eq_getElem_cons hlen (l := m.entries)
        rw [hdrop] at hd
        injection hd with hd1 hd2
        rw [← hok, ← hd1]
        simp [List.get_eq_getElem]
    · rw [if_neg hle] at hok
      cases hok
  · rintro ⟨hlen, rfl⟩
    unfold BoostHashMap.iter
    rw [if_pos (Nat.le_of_lt hlen), List.drop_eq_getElem_cons hlen]
    simp [List.get_eq_getElem]

/-- C10: every defined successful `iterate(pos)` returns exactly the
stored value bytes of the entry at `pos` — never the key bytes (the C++
body returns only `f->second`), so keys cannot be recovered through
iteration. -/
theorem iter_returns_value_bytes_only (m : BoostHashMap) (pos : Nat) (b : ByteStr) :
    m.iter pos = some (.ok b) ↔
      ∃ h : pos < m.entries.length, b = (m.entries.get ⟨pos, h⟩).2 :=
  iter_ok_iff m pos b

/-- C6 counterexample: a map holding one entry, probed at position 2 — at
or beyond the entry count — does not signal `EndOfIteration` there: the
body advances the iterator past `end()`, which has no defined behavior
(`none`), rather than throwing `StopIteration`. -/
theorem iter_beyond_count_does_not_signal :
    (BoostHashMap.mk 64 [([1], [2])]).entries.length ≤ 2 ∧
    BoostHashMap.iter (BoostHashMap.mk 64 [([1], [2])]) 2 = none ∧
    BoostHashMap.iter (BoostHashMap.mk 64 [([1], [2])]) 2 ≠
      some (Except.error MapErr.endOfIteration) := by
  refine ⟨by decide, rfl, ?_⟩
  intro h
  have h2 : (none : Option (Except MapErr ByteStr)) =
      some (Except.error MapErr.endOfIteration) := h
  cases h2

/-- C6 amended: over a quiescent map of `K` entries, the calls
`iterate 0 … iterate (K-1)` all succeed and together return the map's
entries (their value bytes) exactly once, in the map's internal order;
the `K+1`-st call, `iterate K`, signals `EndOfIteration`, and it is the
only position that does — every position strictly beyond `K` advances the
iterator past `end()` and has no defined behavior instead of signalling. -/
theorem iter_enumerates_entries (m : BoostHashMap) :
    (List.range m.entries.length).map m.iter =
      m.entries.map (fun e => some (Except.ok e.2)) ∧
    (∀ pos : Nat, m.iter pos = some (.error .endOfIteration) ↔
      pos = m.entries.length) ∧
    (∀ pos : Nat, m.iter pos = none ↔ m.entries.length < pos) := by
  refine ⟨?_, ?_, ?_⟩
  · apply List.ext_getElem
    · simp
    · intro i h1 h2
      simp only [List.getElem_map, List.getElem_range]
      have hi : i < m.entries.length := by simpa using h2
      exact (iter_ok_iff m i _).2 ⟨hi, by simp [List.get_eq_getElem]⟩
  · intro pos
    unfold BoostHashMap.iter
    by_cases hle : pos ≤ m.entries.length
    · rw [if_pos hle]
      rcases hd : m.entries.drop pos with _ | ⟨e, rest⟩
      · rw [List.drop_eq_nil_iff] at hd
        constructor
        · intro _; omega
        · intro _; rfl
      · have hlen : pos < m.entries.length := by
          by_contra hc
          have hnil : m.entries.drop pos = [] := by
            rw [List.drop_eq_nil_iff]; omega
          rw [hnil] at hd; cases hd
        constructor
        · intro hok; simp at hok
        · intro heq; omega
    · rw [if_neg hle]
      constructor
      · intro hok; cases hok
      · intro heq; omega
  · intro pos
    unfold BoostHashMap.iter
    by_cases hle : pos ≤ m.entries.length
    · rw [if_pos hle]
      constructor
      · intro hnone
        rcases hd : m.entries.drop pos with _ | ⟨e, rest⟩ <;>
          rw [hd] at hnone <;> cases hnone
      · intro hlt; omega
    · rw [if_neg hle]
      simp
      omega

/-- C8: a codec `dumps` failure on the key or the value makes `__setitem__`
surface a serialization error with the underlying byte map untouched;
`__getitem__` never mutates the map, and a `loads` failure on the
retrieved value surfaces as a serialization error. -/
theorem codec_failure_leaves_map (c : Codec α) (m : BoostHashMap) (k v : α) :
    ((∃ e, c.dumps k = .error e) ∨ (∃ e, c.dumps v = .error e) →
      serSetItem c m k v = (.error .serialization, m)) ∧
    (serGetItem c m k).2 = m ∧
    (∀ kb vb x, c.dumps k = .ok kb → m.get kb = .ok vb →
      c.loads vb = .error x → (serGetItem c m k).1 = .error .serialization) := by
  refine ⟨?_, ?_, ?_⟩
  · rintro (⟨e, he⟩ | ⟨e, he⟩) <;>
      · unfold serSetItem
        rcases hk : c.dumps k with _ | kb <;> rcases hv : c.dumps v with _ | vb <;>
          simp_all
  · unfold serGetItem
    split
    · rfl
    · split
      · rfl
      · split <;> rfl
  · intro kb vb x hk hg hl
    simp [serGetItem, hk, hg, hl]

/-- Witness for C8: with a codec whose `dumps` always fails, `__setitem__`
on a concrete map returns the serialization error and the untouched map. -/
theorem codec_failure_leaves_map_witness :
    serSetItem failCodec (BoostHashMap.init 8) 1 2 =
      (.error .serialization, BoostHashMap.init 8) :=
  (codec_failure_leaves_map failCodec (BoostHashMap.init 8) 1 2).1
    (Or.inl ⟨.serializationError, rfl⟩)

/-- Removing the first element satisfying `q` leaves the first element
satisfying `p` unchanged when nothing can satisfy both. -/
theorem find?_eraseP_of_disjoint {α : Type} {p q : α → Bool}
    (hpq : ∀ a, q a = true → p a = false) :
    ∀ l : List α, (l.eraseP q).find? p = l.find? p := by
  intro l
  induction l with
  | nil => rfl
  | cons e t ih =>
      cases hq : q e
      · rw [List.eraseP_cons_of_neg (by simp [hq])]
        cases hp : p e
        · rw [List.find?_cons_of_neg _ (by simp [hp]),
            List.find?_cons_of_neg _ (by simp [hp]), ih]
        · rw [List.find?_cons_of_pos _ hp, List.find?_cons_of_pos _ hp]
      · rw [List.eraseP_cons_of_pos hq,
          List.find?_cons_of_neg _ (by simp [hpq e hq])]

/-- With unique keys, erasing key `k` leaves no entry with key `k`. -/
theorem find?_eraseP_self {l : List (ByteStr × ByteStr)} {k : ByteStr}
    (h : (l.map Prod.fst).Nodup) :
    (l.eraseP (BoostHashMap.keyIs k)).find? (BoostHashMap.keyIs k) = none := by
  induction l with
  | nil => rfl
  | cons e t ih =>
      simp only [List.map_cons, List.nodup_cons] at h
      cases he : BoostHashMap.keyIs k e
      · rw [List.eraseP_cons_of_neg (by simp [he]),
          List.find?_cons_of_neg _ (by simp [he]), ih h.2]
      · rw [List.eraseP_cons_of_pos he, List.find?_eq_none]
        intro x hx
        have hek : e.1 = k := by
          simpa [BoostHashMap.keyIs] using he
        have hxk : x.1 ≠ k := by
          intro hxe
          apply h.1
          have hmem : x.1 ∈ List.map Prod.fst t := List.mem_map_of_mem Prod.fst hx
          rwa [hxe, ← hek] at hmem
        simp [BoostHashMap.keyIs, hxk]

/-- A fresh map is well-formed. -/
theorem Wf_init (n : Nat) : BoostHashMap.Wf (BoostHashMap.init n) := by
  simp [BoostHashMap.Wf, BoostHashMap.init]

/-- `set` preserves key uniqueness. -/
theorem Wf_set {m : BoostHashMap} (hw : m.Wf) (k v : ByteStr) :
    (m.set k v).Wf := by
  unfold BoostHashMap.Wf BoostHashMap.set at *
  simp only [List.map_cons, List.nodup_cons]
  constructor
  · intro hmem
    rcases List.mem_map.1 hmem with ⟨x, hx, hxk⟩
    have hnone := find?_eraseP_self (l := m.entries) (k := k) hw
    rw [List.find?_eq_none] at hnone
    exact hnone x hx (by simp [BoostHashMap.keyIs, hxk])
  · exact hw.sublist ((List.eraseP_sublist m.entries).map Prod.fst)

/-- `erase` preserves key uniqueness. -/
theorem Wf_erase {m : BoostHashMap} (hw : m.Wf) (k : ByteStr) :
    (m.erase k).Wf :=
  hw.sublist ((List.eraseP_sublist m.entries).map Prod.fst)

/-- `clear` preserves key uniqueness. -/
theorem Wf_clear (m : BoostHashMap) : (m.clear).Wf := by
  simp [BoostHashMap.Wf, BoostHashMap.clear]

/-- Effect of `set` on the entry found under an arbitrary key. -/
theorem find?_after_set (m : BoostHashMap) (k2 v k : ByteStr) :
    ((m.set k2 v).entries.find? (BoostHashMap.keyIs k)).map Prod.snd =
      if k2 == k then some v
      else (m.entries.find? (BoostHashMap.keyIs k)).map Prod.snd := by
  unfold BoostHashMap.set
  cases hk : k2 == k
  · rw [List.find?_cons_of_neg _ (by simp [BoostHashMap.keyIs, hk])]
    rw [find?_eraseP_of_disjoint (p := BoostHashMap.keyIs k)
      (q := BoostHashMap.keyIs k2)]
    · simp
    · intro a ha
      have h1 : a.1 = k2 := by simpa [BoostHashMap.keyIs] using ha
      have h2 : k2 ≠ k := by simpa using hk
      simp [BoostHashMap.keyIs, h1, h2]
  · rw [List.find?_cons_of_pos _ (by simp [BoostHashMap.keyIs, hk])]
    simp

/-- Effect of `erase` on the entry found under an arbitrary key (key
uniqueness is needed when the erased key is the looked-up key). -/
theorem find?_after_erase {m : BoostHashMap} (hw : m.Wf) (k2 k : ByteStr) :
    ((m.erase k2).entries.find? (BoostHashMap.keyIs k)).map Prod.snd =
      if k2 == k then none
      else (m.entries.find? (BoostHashMap.keyIs k)).map Prod.snd := by
  unfold BoostHashMap.erase
  cases hk : k2 == k
  · rw [find?_eraseP_of_disjoint (p := BoostHashMap.keyIs k)
      (q := BoostHashMap.keyIs k2)]
    · simp
    · intro a ha
      have h1 : a.1 = k2 := by simpa [BoostHashMap.keyIs] using ha
      have h2 : k2 ≠ k := by simpa using hk
      simp [BoostHashMap.keyIs, h1, h2]
  · have hkk : k2 = k := by simpa using hk
    subst hkk
    rw [find?_eraseP_self hw]
    simp

/-- Running ops preserves key uniqueness. -/
theorem Wf_runMapOps (ops : List MOp) :
    ∀ m : BoostHashMap, m.Wf → (runMapOps m ops).Wf := by
  induction ops with
  | nil => intro m hw; exact hw
  | cons op rest ih =>
      intro m hw
      cases op with
      | set k v => exact ih _ (Wf_set hw k v)
      | erase k => exact ih _ (Wf_erase hw k)
      | clear => exact ih _ (Wf_clear m)

/-- The value found under `k` after running a sequence of mutating calls
is the fold of the per-call write effects over the starting value. -/
theorem find?_runMapOps (ops : List MOp) :
    ∀ m : BoostHashMap, m.Wf → ∀ k : ByteStr,
      ((runMapOps m ops).entries.find? (BoostHashMap.keyIs k)).map Prod.snd =
        ops.foldl
          (fun acc op =>
            match op with
            | .set k2 v => if k2 == k then some v else acc
            | .erase k2 => if k2 == k then none else acc
            | .clear => none)
          ((m.entries.find? (BoostHashMap.keyIs k)).map Prod.snd) := by
  induction ops with
  | nil => intro m hw k; rfl
  | cons op rest ih =>
      intro m hw k
      cases op with
      | set k2 v =>
          have step := find?_after_set m k2 v k
          have ihs := ih _ (Wf_set hw k2 v) k
          rw [step] at ihs
          exact ihs
      | erase k2 =>
          have step := find?_after_erase hw k2 k
          have ihs := ih _ (Wf_erase hw k2) k
          rw [step] at ihs
          exact ihs
      | clear =>
          exact ih _ (Wf_clear m) k

/-- C1: after any single-process sequence of `set`/`erase` calls on one
map, `get k` returns the value of the most recent `set k v` — unless an
`erase k` (or `clear`) occurred later, in which case it fails with
`KeyNotFound`; `get` itself never changes the state. -/
theorem get_returns_most_recent_set (n : Nat) (ops : List MOp) (k : ByteStr) :
    (runMapOps (BoostHashMap.init n) ops).get k =
      match lastWrite ops k with
      | some v => Except.ok v
      | none => Except.error MapErr.keyNotFound := by
  have h := find?_runMapOps ops (BoostHashMap.init n) (Wf_init n) k
  have h2 : ((runMapOps (BoostHashMap.init n) ops).entries.find?
      (BoostHashMap.keyIs k)).map Prod.snd = lastWrite ops k := h
  unfold BoostHashMap.get
  rcases hf : (runMapOps (BoostHashMap.init n) ops).entries.find?
      (BoostHashMap.keyIs k) with _ | e
  · rw [hf] at h2
    simp only [Option.map_none'] at h2
    rw [← h2]
  · rw [hf] at h2
    simp only [Option.map_some'] at h2
    rw [← h2]

/-- The element `find?` returns, consed onto the `eraseP` result, is a
permutation of the original list. -/
theorem perm_cons_eraseP_of_find? {α : Type} {p : α → Bool} :
    ∀ {l : List α} {a : α}, l.find? p = some a →
      List.Perm (a :: l.eraseP p) l := by
  intro l
  induction l with
  | nil => intro a h; cases h
  | cons e t ih =>
      intro a h
      cases hp : p e
      · rw [List.find?_cons_of_neg _ (by simp [hp])] at h
        rw [List.eraseP_cons_of_neg (by simp [hp])]
        exact (List.Perm.swap e a _).trans ((ih h).cons e)
      · rw [List.find?_cons_of_pos _ hp] at h
        injection h with h
        subst h
        rw [List.eraseP_cons_of_pos hp]

/-- `move_page_to_head` permutes the recency list. -/
theorem move_page_to_head_perm (l : DoublyLinkedList) (k : String) :
    List.Perm (DoublyLinkedList.move_page_to_head l k) l := by
  rcases hf : DoublyLinkedList.pageFor l k with _ | page
  · simp [DoublyLinkedList.move_page_to_head, hf]
  · simp only [DoublyLinkedList.move_page_to_head, hf]
    split
    · exact List.Perm.refl l
    · exact perm_cons_eraseP_of_find? hf

/-- Updating the value stored under `k` in place leaves the key sequence
unchanged. -/
theorem keys_map_update (l : DoublyLinkedList) (k v : String) :
    (l.map (fun e => if e.1 == k then (e.1, v) else e)).map Prod.fst =
      l.map Prod.fst := by
  rw [List.map_map]
  have hfst : (Prod.fst ∘ fun e : String × String =>
      if e.1 == k then (e.1, v) else e) = Prod.fst := by
    funext e
    dsimp only [Function.comp]
    split <;> rfl
  rw [hfst]

/-- A key linked in the list is found by `pageFor`. -/
theorem pageFor_of_mem_keys {l : DoublyLinkedList} {k : String}
    (h : k ∈ l.map Prod.fst) :
    ∃ page, DoublyLinkedList.pageFor l k = some page := by
  have hs : (l.find? (fun e => e.1 == k)).isSome := by
    rw [List.find?_isSome]
    rcases List.mem_map.1 h with ⟨e, he, hek⟩
    exact ⟨e, he, by simp [hek]⟩
  rcases hf : l.find? (fun e => e.1 == k) with _ | page
  · rw [hf] at hs; cases hs
  · exact ⟨page, hf⟩

/-- A fresh cache with non-negative capacity satisfies the invariant. -/
theorem lruInv_init {n : Int} (hn : 0 ≤ n) : LruInv (LRUCache.init n) := by
  refine ⟨rfl, ?_, ?_, ?_, ?_⟩ <;> simp [LRUCache.init, lruKeys, hn]

/-- `get` succeeds (no dangling dereference) and preserves the invariant. -/
theorem lru_get_inv {c : LRUCache} (k : String) (h : LruInv c) :
    ∃ r, c.get k = some r ∧ LruInv r.2 ∧ r.2.capacity = c.capacity := by
  obtain ⟨hsz, hcap, hnd, hndm, hmem⟩ := h
  cases hc : c.pageMap.contains k
  · have hkm : k ∉ c.pageMap := by
      intro hm
      have htrue : c.pageMap.contains k = true := List.elem_iff.2 hm
      rw [hc] at htrue
      cases htrue
    exact ⟨(.error .keyNotFound, c), by simp [LRUCache.get, hkm],
      ⟨hsz, hcap, hnd, hndm, hmem⟩, rfl⟩
  · have hkm : k ∈ c.pageMap := List.elem_iff.1 hc
    have hkl : k ∈ lruKeys c := (hmem k).2 hkm
    obtain ⟨page, hpage⟩ := pageFor_of_mem_keys hkl
    refine ⟨(.ok page.2,
      { c with pageList := DoublyLinkedList.move_page_to_head c.pageList k }),
      by simp [LRUCache.get, hkm, hpage], ⟨?_, hcap, ?_, hndm, ?_⟩, rfl⟩
    · show c.size =
        ((DoublyLinkedList.move_page_to_head c.pageList k).length : Int)
      rw [(move_page_to_head_perm c.pageList k).length_eq]
      exact hsz
    · exact (((move_page_to_head_perm c.pageList k).map Prod.fst).nodup_iff).2 hnd
    · intro x
      exact (((move_page_to_head_perm c.pageList k).map Prod.fst).mem_iff).trans
        (hmem x)

/-- `put` succeeds (no null-rear dereference) and preserves the invariant
whenever the capacity is at least 1. -/
theorem lru_put_inv {c : LRUCache} (k v : String) (h : LruInv c)
    (hpos : 1 ≤ c.capacity) :
    ∃ c2, c.put k v = some c2 ∧ LruInv c2 ∧ c2.capacity = c.capacity := by
  obtain ⟨hsz, hcap, hnd, hndm, hmem⟩ := h
  cases hc : c.pageMap.contains k
  case false =>
    have hkm : k ∉ c.pageMap := by
      intro hm
      have htrue : c.pageMap.contains k = true := List.elem_iff.2 hm
      rw [hc] at htrue
      cases htrue
    have hkl : k ∉ lruKeys c := fun hx => hkm ((hmem k).1 hx)
    by_cases hfull : c.size = c.capacity
    · have hne : c.pageList ≠ [] := by
        intro hnil
        rw [hnil] at hsz
        simp at hsz
        omega
      have hlast : c.pageList.getLast? = some (c.pageList.getLast hne) :=
        List.getLast?_eq_getLast c.pageList hne
      have hput : c.put k v = some
          { capacity := c.capacity, size := c.size - 1 + 1,
            pageList := (k, v) :: c.pageList.dropLast,
            pageMap := k :: c.pageMap.erase (c.pageList.getLast hne).1 } := by
        simp [LRUCache.put, hkm, hfull, DoublyLinkedList.get_rear_page, hlast,
          DoublyLinkedList.remove_rear_page, DoublyLinkedList.add_page_to_head]
      have h2 : (c.pageList.map Prod.fst).Nodup := hnd
      have hsplit : c.pageList.map Prod.fst =
          c.pageList.dropLast.map Prod.fst ++ [(c.pageList.getLast hne).1] := by
        conv_lhs => rw [← List.dropLast_append_getLast hne]
        rw [List.map_append]
        rfl
      rw [hsplit, List.nodup_append] at h2
      have hAnd : (c.pageList.dropLast.map Prod.fst).Nodup := h2.1
      have hrA : (c.pageList.getLast hne).1 ∉ c.pageList.dropLast.map Prod.fst :=
        fun hmm => h2.2.2 hmm (by simp)
      have hAmem : ∀ x, x ∈ c.pageList.dropLast.map Prod.fst ↔
          (x ∈ c.pageMap ∧ x ≠ (c.pageList.getLast hne).1) := by
        intro x
        have hx2 : x ∈ c.pageList.map Prod.fst ↔ x ∈ c.pageMap := hmem x
        constructor
        · intro hx
          refine ⟨hx2.1 ?_, ?_⟩
          · rw [hsplit]
            exact List.mem_append_left _ hx
          · intro hxr
            rw [hxr] at hx
            exact hrA hx
        · rintro ⟨hxp, hxr⟩
          have hx3 : x ∈ c.pageList.map Prod.fst := hx2.2 hxp
          rw [hsplit] at hx3
          rcases List.mem_append.1 hx3 with h1 | h1
          · exact h1
          · simp at h1
            exact absurd h1 hxr
      have hlen : 0 < c.pageList.length := List.length_pos.2 hne
      refine ⟨_, hput, ⟨?_, ?_, ?_, ?_, ?_⟩, rfl⟩
      · show c.size - 1 + 1 = (((k, v) :: c.pageList.dropLast).length : Int)
        simp only [List.length_cons, List.length_dropLast]
        omega
      · show c.size - 1 + 1 ≤ c.capacity
        omega
      · show (((k, v) :: c.pageList.dropLast).map Prod.fst).Nodup
        simp only [List.map_cons, List.nodup_cons]
        refine ⟨?_, hAnd⟩
        intro hkA
        have hkmem : k ∈ c.pageList.map Prod.fst := by
          rw [hsplit]
          exact List.mem_append_left _ hkA
        exact hkl hkmem
      · show (k :: c.pageMap.erase (c.pageList.getLast hne).1).Nodup
        refine List.nodup_cons.2 ⟨?_, hndm.erase _⟩
        intro hkE
        exact hkm ((List.erase_sublist _ _).subset hkE)
      · intro x
        show x ∈ ((k, v) :: c.pageList.dropLast).map Prod.fst ↔
          x ∈ k :: c.pageMap.erase (c.pageList.getLast hne).1
        simp only [List.map_cons, List.mem_cons]
        constructor
        · rintro (rfl | hx)
          · exact Or.inl rfl
          · rcases (hAmem x).1 hx with ⟨hxp, hxr⟩
            exact Or.inr (hndm.mem_erase_iff.2 ⟨hxr, hxp⟩)
        · rintro (rfl | hx)
          · exact Or.inl rfl
          · rcases hndm.mem_erase_iff.1 hx with ⟨hxr, hxp⟩
            exact Or.inr ((hAmem x).2 ⟨hxp, hxr⟩)
    · have hput : c.put k v = some
          { capacity := c.capacity, size := c.size + 1,
            pageList := (k, v) :: c.pageList, pageMap := k :: c.pageMap } := by
        simp [LRUCache.put, hkm, hfull, DoublyLinkedList.add_page_to_head]
      refine ⟨_, hput, ⟨?_, ?_, ?_, ?_, ?_⟩, rfl⟩
      · show c.size + 1 = (((k, v) :: c.pageList).length : Int)
        simp only [List.length_cons]
        omega
      · show c.size + 1 ≤ c.capacity
        omega
      · show (((k, v) :: c.pageList).map Prod.fst).Nodup
        simp only [List.map_cons, List.nodup_cons]
        exact ⟨fun hx => hkl hx, hnd⟩
      · exact List.nodup_cons.2 ⟨hkm, hndm⟩
      · intro x
        show x ∈ ((k, v) :: c.pageList).map Prod.fst ↔ x ∈ k :: c.pageMap
        simp only [List.map_cons, List.mem_cons]
        constructor
        · rintro (rfl | hx)
          · exact Or.inl rfl
          · exact Or.inr ((hmem x).1 hx)
        · rintro (rfl | hx)
          · exact Or.inl rfl
          · exact Or.inr ((hmem x).2 hx)
  case true =>
    have hkm : k ∈ c.pageMap := List.elem_iff.1 hc
    have hkl : k ∈ lruKeys c := (hmem k).2 hkm
    have hkeys2 : (c.pageList.map (fun e => if e.1 == k then (e.1, v) else e)).map
        Prod.fst = c.pageList.map Prod.fst := keys_map_update c.pageList k v
    have hput : c.put k v = some
        { c with pageList := (DoublyLinkedList.move_page_to_head
            (c.pageList.map (fun e => if e.1 == k then (e.1, v) else e)) k) } := by
      simp [LRUCache.put, hkm]
    have hperm := move_page_to_head_perm
      (c.pageList.map (fun e => if e.1 == k then (e.1, v) else e)) k
    have hpermk : List.Perm ((DoublyLinkedList.move_page_to_head
        (c.pageList.map (fun e => if e.1 == k then (e.1, v) else e)) k).map Prod.fst)
        (c.pageList.map Prod.fst) := by
      have hp2 := hperm.map Prod.fst
      rwa [hkeys2] at hp2
    refine ⟨_, hput, ⟨?_, hcap, ?_, hndm, ?_⟩, rfl⟩
    · show c.size = ((DoublyLinkedList.move_page_to_head
        (c.pageList.map (fun e => if e.1 == k then (e.1, v) else e)) k).length : Int)
      rw [hperm.length_eq, List.length_map]
      exact hsz
    · exact hpermk.nodup_iff.2 hnd
    · intro x
      exact (hpermk.mem_iff).trans (hmem x)

/-- Running any call sequence from an invariant state with capacity ≥ 1
crashes nowhere and preserves the invariant and the capacity. -/
theorem runLRU_inv (ops : List LOp) :
    ∀ c : LRUCache, LruInv c → 1 ≤ c.capacity →
      ∃ c2, runLRU c ops = some c2 ∧ LruInv c2 ∧ c2.capacity = c.capacity := by
  induction ops with
  | nil => intro c h hpos; exact ⟨c, rfl, h, rfl⟩
  | cons op rest ih =>
      intro c h hpos
      cases op with
      | put k v =>
          obtain ⟨c1, hstep, hinv1, hcap1⟩ := lru_put_inv k v h hpos
          obtain ⟨c2, hrun, hinv2, hcap2⟩ := ih c1 hinv1 (by rw [hcap1]; exact hpos)
          refine ⟨c2, ?_, hinv2, by rw [hcap2, hcap1]⟩
          simp [runLRU, hstep, hrun]
      | get k =>
          obtain ⟨r, hstep, hinv1, hcap1⟩ := lru_get_inv k h
          obtain ⟨c2, hrun, hinv2, hcap2⟩ := ih r.2 hinv1 (by rw [hcap1]; exact hpos)
          refine ⟨c2, ?_, hinv2, by rw [hcap2, hcap1]⟩
          simp [runLRU, hstep, hrun]

/-- C3: for every capacity `N ≥ 1` and every sequence of `put`/`get`
calls on a fresh `LRUCache(N)`, every call completes (no null or dangling
pointer is dereferenced) and afterwards `size ≤ N`, the keys of the
recency list and of the `pageMap` index are each free of duplicates, and
the two hold exactly the same keys.  Since `ops` ranges over all
sequences, the invariant holds after each intermediate operation as
well. -/
theorem lru_invariant_holds (N : Int) (hN : 1 ≤ N) (ops : List LOp) :
    ∃ c, runLRU (LRUCache.init N) ops = some c ∧
      c.size ≤ N ∧ (lruKeys c).Nodup ∧ c.pageMap.Nodup ∧
      (∀ k : String, k ∈ lruKeys c ↔ k ∈ c.pageMap) := by
  obtain ⟨c, hrun, hinv, hcap⟩ := runLRU_inv ops (LRUCache.init N)
    (lruInv_init (by omega)) (by simpa [LRUCache.init] using hN)
  refine ⟨c, hrun, ?_, hinv.2.2.1, hinv.2.2.2.1, hinv.2.2.2.2⟩
  have hcapN : c.capacity = N := by simpa [LRUCache.init] using hcap
  rw [← hcapN]
  exact hinv.2.1

/-- Witness for C3 at capacity 1 and a two-call sequence that forces an
eviction. -/
theorem lru_invariant_holds_witness :
    ∃ c, runLRU (LRUCache.init 1) [LOp.put "a" "x", LOp.put "b" "y"] = some c ∧
      c.size ≤ 1 ∧ (lruKeys c).Nodup ∧ c.pageMap.Nodup ∧
      (∀ k : String, k ∈ lruKeys c ↔ k ∈ c.pageMap) :=
  lru_invariant_holds 1 (by decide) [LOp.put "a" "x", LOp.put "b" "y"]
